import Mathlib

/-!
Verification of the FAST optical-Bloch-equation module `fast/bloch.py`.

This file gives a shallow embedding of the functions of `fast/bloch.py`
(and the helper `cartesian_dot_product` of `fast/symbolic.py`) and proves
or refutes the specified properties about them.

Modelling conventions:
* Python floats are modelled as exact rationals (`ℚ`); Python complex
  numbers as pairs of rationals (`CQ`).  No floating-point rounding is
  modelled; all arithmetic identities are exact.
* Python `range(a, b)` is `pyRange a b`.
* Python dictionaries built by inserting distinct keys with an increasing
  counter (the vectorization maps) are modelled by the list of keys in
  insertion order; lookup of key `x` is its index in that list, lookup of
  a missing key (a Python `KeyError`) is `none`.
* Symbolic `sympy` expressions that are linear in the laser frequencies
  `varpi_l` and the level symbols `omega_j` are modelled by their
  coefficient vectors (`LinExpr`); `diff` is coefficient extraction and
  the exact zero test is coefficient-wise comparison.
* The code generator of `fast_hamiltonian` produces Python source that is
  then `exec`d; we embed the semantics of the generated evaluator
  directly (`fast_hamiltonian` below), with the build-time/run-time
  staging of each argument kept explicit through the `variable_*` flags.
-/

/-- Complex numbers with exact rational parts, modelling Python `complex`. -/
structure CQ where
  re : ℚ
  im : ℚ
deriving DecidableEq

instance : Zero CQ := ⟨⟨0, 0⟩⟩

instance : Add CQ := ⟨fun a b => ⟨a.re + b.re, a.im + b.im⟩⟩

instance : Mul CQ := ⟨fun a b => ⟨a.re * b.re - a.im * b.im, a.re * b.im + a.im * b.re⟩⟩

/-- Complex conjugation, modelling Python `complex.conjugate()`. -/
def CQ.conj (z : CQ) : CQ := ⟨z.re, -z.im⟩

/-- Embedding of a real (rational) value as a complex value. -/
def CQ.ofQ (q : ℚ) : CQ := ⟨q, 0⟩

/-- Model of Python `range(a, b)`. -/
def pyRange (a b : ℕ) : List ℕ := List.range' a (b - a)

/-- Dot product in the cartesian basis, from `fast/symbolic.py`
(`cartesian_dot_product`): `v1[0]*v2[0] + v1[1]*v2[1] + v1[2]*v2[2]`,
with no conjugation. -/
def cartesian_dot_product (v1 v2 : Fin 3 → CQ) : CQ :=
  v1 0 * v2 0 + v1 1 * v2 1 + v1 2 * v2 2

/-!  Vectorization (`vectorization` in `fast/bloch.py`, lines 991-1348). -/

/-- Key of the complex-valued vectorization dictionary `comp_map`:
a tuple `(i, j, k)` of row, column and velocity group. -/
abbrev KeyC := ℕ × ℕ × ℕ

/-- Key of the real-valued vectorization dictionary `real_map`:
a tuple `(s, i, j, k)` with a sign tag `s ∈ {1, -1}`. -/
abbrev KeyR := ℤ × ℕ × ℕ × ℕ

/-- Generic insertion order of the `vectorization` dictionaries: for each
velocity group `k < Nv`, first the population entries for
`i ∈ range(start, Ne)`, then for each `j ∈ range(Ne)` and each
`i ∈ range(j+1, Ne)` the coherence entries of the pair `(i, j)`.
The entries inserted for one population or one coherence pair are given
by the parameters `pop` and `coh`. -/
def vkeysG {K : Type} (Ne Nv start : ℕ) (pop : ℕ → ℕ → List K)
    (coh : ℕ → ℕ → ℕ → List K) : List K :=
  (pyRange 0 Nv).flatMap fun k =>
    (pyRange start Ne).flatMap (pop k) ++
      (pyRange 0 Ne).flatMap fun j => (pyRange (j + 1) Ne).flatMap fun i => coh k i j

/-- First population index: `1` if `normalized` else `0` (lines 1294-1297). -/
def vstart (normalized : Bool) : ℕ := if normalized then 1 else 0

/-- Population keys inserted into `comp_map` for state `i`, group `k`. -/
def comp_pop (k i : ℕ) : List KeyC := [(i, i, k)]

/-- Coherence keys inserted into `comp_map` for the pair `(i, j)`, `i > j`,
group `k`: the lower entry `(i, j, k)` and, unless `lower_triangular`,
also the upper entry `(j, i, k)` (lines 1307-1320). -/
def comp_coh (lower_triangular : Bool) (k i j : ℕ) : List KeyC :=
  (i, j, k) :: (if lower_triangular then [] else [(j, i, k)])

/-- Population keys inserted into `real_map` for state `i`, group `k`:
sign tag `1` only (lines 1302-1304). -/
def real_pop (k i : ℕ) : List KeyR := [((1 : ℤ), i, i, k)]

/-- Coherence keys inserted into `real_map` for the pair `(i, j)`, `i > j`,
group `k`: signs `1, -1` for `(i, j)` and, unless `lower_triangular`,
signs `1, -1` for `(j, i)` (lines 1312-1324). -/
def real_coh (lower_triangular : Bool) (k i j : ℕ) : List KeyR :=
  ((1 : ℤ), i, j, k) :: ((-1 : ℤ), i, j, k) ::
    (if lower_triangular then [] else [((1 : ℤ), j, i, k), ((-1 : ℤ), j, i, k)])

/-- Keys of the dictionary `comp_map`, in insertion order.  The value
stored for the `n`-th inserted key is `n` (the counter `mu_comp`). -/
def comp_map_keys (Ne Nv : ℕ) (lower_triangular normalized : Bool) : List KeyC :=
  vkeysG Ne Nv (vstart normalized) comp_pop (comp_coh lower_triangular)

/-- Keys of the dictionary `real_map`, in insertion order.  The value
stored for the `n`-th inserted key is `n` (the counter `mu_real`). -/
def real_map_keys (Ne Nv : ℕ) (lower_triangular normalized : Bool) : List KeyR :=
  vkeysG Ne Nv (vstart normalized) real_pop (real_coh lower_triangular)

/-- Position of a key in the insertion-order list: the value the Python
dictionary stores for that key (the keys are pairwise distinct). -/
def pyIndexOf {K : Type} [DecidableEq K] (l : List K) (x : K) : ℕ := l.indexOf x

/-- The function `Mu_comp(i, j, k) = comp_map[(i, j, k)]`:  dictionary
lookup, `none` modelling the Python `KeyError` on a missing key. -/
def Mu_comp (Ne Nv : ℕ) (lower_triangular normalized : Bool) (x : KeyC) : Option ℕ :=
  if x ∈ comp_map_keys Ne Nv lower_triangular normalized then
    some (pyIndexOf (comp_map_keys Ne Nv lower_triangular normalized) x)
  else none

/-- The function `IJ_comp(mu) = comp_map_inv[mu]`: the inverse dictionary
maps the counter value `mu` to the `mu`-th inserted key. -/
def IJ_comp (Ne Nv : ℕ) (lower_triangular normalized : Bool) (mu : ℕ) : Option KeyC :=
  (comp_map_keys Ne Nv lower_triangular normalized)[mu]?

/-- The function `Mu_real(s, i, j, k) = real_map[(s, i, j, k)]`. -/
def Mu_real (Ne Nv : ℕ) (lower_triangular normalized : Bool) (x : KeyR) : Option ℕ :=
  if x ∈ real_map_keys Ne Nv lower_triangular normalized then
    some (pyIndexOf (real_map_keys Ne Nv lower_triangular normalized) x)
  else none

/-- The function `IJ_real(mu) = real_map_inv[mu]`. -/
def IJ_real (Ne Nv : ℕ) (lower_triangular normalized : Bool) (mu : ℕ) : Option KeyR :=
  (real_map_keys Ne Nv lower_triangular normalized)[mu]?

/-!  Phase transformation (`phase_transformation`, lines 231-303). -/

/-- One equation of the linear system built by `phase_transformation`:
`PhaseEq.mk l tj ti` stands for the sympy expression
`-omega_laser[l] + theta[tj] - theta[ti]` (line 267). -/
structure PhaseEq where
  l : ℕ
  tj : ℕ
  ti : ℕ
deriving DecidableEq

/-- The equation list built by `phase_transformation` (lines 259-267): for
`i ∈ range(Ne)`, `j ∈ range(i)`, if some cartesian component of
`rm[:, i, j]` is nonzero, one equation for every field `l` with
`xi[l, i, j] == 1`.  With `return_equations=True` this list is returned. -/
def phase_transformation_eqs (Ne Nl : ℕ) (rm : Fin 3 → ℕ → ℕ → CQ)
    (xi : ℕ → ℕ → ℕ → ℚ) : List PhaseEq :=
  (pyRange 0 Ne).flatMap fun i =>
    (pyRange 0 i).flatMap fun j =>
      if rm 0 i j ≠ 0 ∨ rm 1 i j ≠ 0 ∨ rm 2 i j ≠ 0 then
        (pyRange 0 Nl).flatMap fun l => if xi l i j = 1 then [⟨l, j, i⟩] else []
      else []

/-- Continuation of `phase_transformation` past the solver call
(lines 275-277): `sol = sympy.solve(eqs, theta, dict=True); sol = sol[0]`.
The external solver `sympy.solve` is abstracted as the parameter `solve`
returning a list of solution dictionaries (of unspecified type `Sol`);
`sol[0]` on an empty list raises an uncaught `IndexError`, modelled by
`List.head?` returning `none`. -/
def phase_transformation_sol {Sol : Type} (solve : List PhaseEq → List Sol)
    (Ne Nl : ℕ) (rm : Fin 3 → ℕ → ℕ → CQ) (xi : ℕ → ℕ → ℕ → ℚ) : Option Sol :=
  (solve (phase_transformation_eqs Ne Nl rm xi)).head?

/-!  Degeneracy simplification (`define_simplification`, lines 306-372). -/

/-- State of the scan of `define_simplification` (lines 346-357): current
class energy `om`, current class index `iu`, reduced energy list
`omega_levelu`, the dictionary `d` (here a list: `d.getD i` is the class
of level `i`), and the dictionary `di` (`di.getD iu` is the
representative original index of class `iu`). -/
structure SimpSt where
  om : ℚ
  iu : ℕ
  omega_levelu : List ℚ
  d : List ℕ
  di : List ℕ

/-- The scan of `define_simplification`: start a new class whenever the
energy differs (exact comparison) from the current class energy. -/
def define_simplification (omega_level : List ℚ) : SimpSt :=
  (pyRange 0 omega_level.length).foldl
    (fun st i =>
      let x := omega_level.getD i 0
      if x ≠ st.om then
        ⟨x, st.iu + 1, st.omega_levelu ++ [x], st.d ++ [st.iu + 1], st.di ++ [i]⟩
      else
        ⟨st.om, st.iu, st.omega_levelu, st.d ++ [st.iu], st.di⟩)
    ⟨omega_level.getD 0 0, 0, [omega_level.getD 0 0], [], [0]⟩

/-- The simplifying map `u(i) = d[i]` returned by `define_simplification`. -/
def simp_u (st : SimpSt) (i : ℕ) : ℕ := st.d.getD i 0

/-- The inverse map `invu(iu) = di[iu]` returned by `define_simplification`. -/
def simp_invu (st : SimpSt) (iu : ℕ) : ℕ := st.di.getD iu 0

/-- The class count `Neu = len(omega_levelu)`. -/
def simp_Neu (st : SimpSt) : ℕ := st.omega_levelu.length

/-- The simplified coupling tensor `xiu[l, iu, ju] = xi[l, invu(iu), invu(ju)]`
(lines 366-370). -/
def simp_xiu (xi : ℕ → ℕ → ℕ → ℚ) (st : SimpSt) (l i j : ℕ) : ℚ :=
  xi l (simp_invu st i) (simp_invu st j)

/-!  Reference detunings (`find_omega_min`, lines 375-406). -/

/-- Strict lexicographic order on the triples `(energy, iu, ju)`, the
order used by Python `sorted` on such tuples. -/
def lexLtQ (a b : ℚ × ℕ × ℕ) : Bool :=
  if a.1 ≠ b.1 then decide (a.1 < b.1)
  else if a.2.1 ≠ b.2.1 then decide (a.2.1 < b.2.1)
  else decide (a.2.2 < b.2.2)

/-- Stable insertion of `x` into a sorted list: `x` goes after every
element strictly smaller and before the first element not smaller. -/
def insertLt {α : Type} (lt : α → α → Bool) (x : α) : List α → List α
  | [] => [x]
  | y :: ys => if lt y x then y :: insertLt lt x ys else x :: y :: ys

/-- Stable sort by a strict order, modelling Python `sorted`. -/
def sortLt {α : Type} (lt : α → α → Bool) : List α → List α
  | [] => []
  | x :: xs => insertLt lt x (sortLt lt xs)

/-- The list `omegasl` of `find_omega_min` for field `l` (lines 396-400):
triples `(omega_levelu[iu] - omega_levelu[ju], iu, ju)` over the coupled
pairs `iu > ju` of field `l`. -/
def omegasl (omega_levelu : List ℚ) (Neu : ℕ) (xiu : ℕ → ℕ → ℕ → ℚ) (l : ℕ) :
    List (ℚ × ℕ × ℕ) :=
  (pyRange 0 Neu).flatMap fun iu =>
    (pyRange 0 iu).flatMap fun ju =>
      if xiu l iu ju = 1 then
        [(omega_levelu.getD iu 0 - omega_levelu.getD ju 0, iu, ju)]
      else []

/-- The function `find_omega_min` (lines 375-406): for each field, the
smallest transition, by sorting `omegasl` and taking its head.  Taking
the head of an empty list is an `IndexError` in Python; it is modelled
here by the default triple `(0, 0, 0)` and never reached in the theorems
below. -/
def find_omega_min (omega_levelu : List ℚ) (Neu Nl : ℕ) (xiu : ℕ → ℕ → ℕ → ℚ) :
    List ℚ × List ℕ × List ℕ :=
  let tri := (pyRange 0 Nl).map fun l =>
    (sortLt lexLtQ (omegasl omega_levelu Neu xiu l)).headD (0, 0, 0)
  (tri.map (·.1), tri.map (·.2.1), tri.map (·.2.2))

/-!  Coupled-pair indices (`detunings_indices`, lines 409-440). -/

/-- The function `detunings_indices`: for each field `l`, the pairs
`(iu, ju)` with `iu > ju` and `xiu[l, iu, ju] == 1`. -/
def detunings_indices (Neu Nl : ℕ) (xiu : ℕ → ℕ → ℕ → ℚ) : List (List (ℕ × ℕ)) :=
  (pyRange 0 Nl).map fun l =>
    (pyRange 0 Neu).flatMap fun iu =>
      (pyRange 0 iu).flatMap fun ju =>
        if xiu l iu ju = 1 then [(iu, ju)] else []

/-!  Detuning code generation (`detunings_code`, lines 443-481). -/

/-- The constant correction computed by `detunings_code` (lines 476-477):
`corr = -omega_levelu[iu] + omega_levelu[iu0[l]]` followed by
`corr = omega_levelu[ju0[l]] - omega_levelu[ju] + corr`. -/
def detunings_corr (omega_levelu : List ℚ) (iu0 ju0 : List ℕ) (l iu ju : ℕ) : ℚ :=
  let corr := -omega_levelu.getD iu 0 + omega_levelu.getD (iu0.getD l 0) 0
  omega_levelu.getD (ju0.getD l 0) 0 - omega_levelu.getD ju 0 + corr

/-- One line emitted by `detunings_code` for field `l` and pair `(iu, ju)`
(lines 472-480); the correction term is appended only when `corr != 0`.
Rational constants are rendered with `toString`, where Python prints the
equal float (for example `-100` here versus `-100.0` in Python). -/
def detunings_line (omega_levelu : List ℚ) (iu0 ju0 : List ℕ) (l iu ju : ℕ) : String :=
  let corr := detunings_corr omega_levelu iu0 ju0 l iu ju
  "    delta" ++ toString (l + 1) ++ "_" ++ toString (iu + 1) ++ "_" ++ toString (ju + 1) ++
    " = detuning_knob[" ++ toString l ++ "]" ++
    (if corr ≠ 0 then " + (" ++ toString corr ++ ")" else "") ++ "\n"

/-- The function `detunings_code` (lines 443-481): concatenation of one
assignment line per field and coupled pair.  The argument `Neu` is unused
by the source as well. -/
def detunings_code (Neu Nl : ℕ) (pairs : List (List (ℕ × ℕ)))
    (omega_levelu : List ℚ) (iu0 ju0 : List ℕ) : String :=
  (pyRange 0 Nl).foldl
    (fun code l =>
      (pairs.getD l []).foldl
        (fun c p => c ++ detunings_line omega_levelu iu0 ju0 l p.1 p.2) code)
    ""

/-!  Combinations (`detunings_combinations`, lines 484-516). -/

/-- The function `detunings_combinations` (lines 504-516).  The inner
helper `iter(pairs, combs, l)` extends every partial combination by every
element of `pairs[l]`; the loop `for l in range(1, Nl)` of the source
calls it with the literal index `1`, not with `l`, which is reproduced
here faithfully (`step combs 1`). -/
def detunings_combinations (pairs : List (List (ℕ × ℕ))) : List (List (ℕ × ℕ)) :=
  let step := fun (combs : List (List (ℕ × ℕ))) (l : ℕ) =>
    combs.flatMap fun c => (pairs.getD l []).map fun p => c ++ [p]
  let Nl := pairs.length
  let combs0 := (pairs.getD 0 []).map fun p => [p]
  (pyRange 1 Nl).foldl (fun combs _l => step combs 1) combs0

/-- Specification-side definition (the spec says: the cartesian product,
across fields, of each field's coupled-pair list, one pair per field). -/
def detunings_combinations_spec (pairs : List (List (ℕ × ℕ))) : List (List (ℕ × ℕ)) :=
  pairs.foldr (fun L acc => L.flatMap fun x => acc.map fun c => x :: c) [[]]

/-!  Symbolic rewrite (`detunings_rewrite`, lines 519-614). -/

/-- Linear sympy expression in the laser frequencies `varpi_{l+1}` and the
level symbols `omega_{j+1}`: `la` lists the laser coefficients, `lv` the
level coefficients, `c` is the constant term.  Missing entries are zero
coefficients. -/
structure LinExpr where
  la : List ℚ
  lv : List ℚ
  c : ℚ
deriving DecidableEq

/-- Pointwise sum of coefficient lists of possibly different lengths. -/
def padAdd : List ℚ → List ℚ → List ℚ
  | [], ys => ys
  | xs, [] => xs
  | x :: xs, y :: ys => (x + y) :: padAdd xs ys

/-- Sum of two linear expressions. -/
def linAdd (e f : LinExpr) : LinExpr := ⟨padAdd e.la f.la, padAdd e.lv f.lv, e.c + f.c⟩

/-- The level symbol `omega_{j+1}` as a linear expression. -/
def levelSym (j : ℕ) : LinExpr := ⟨[], List.replicate j 0 ++ [1], 0⟩

/-- The coefficient `a[l] = diff(expr, omega_laser[l])` (line 566). -/
def rwA (expr : LinExpr) (l : ℕ) : ℚ := expr.la.getD l 0

/-- Level coefficient at position `j` of the tried combination
`expr_try = sum_l a[l]*(omega_laser[l] - omega[comb[l][0]] + omega[comb[l][1]])`
(lines 573-577). -/
def combTryLv (a : ℕ → ℚ) (Nl : ℕ) (comb : List (ℕ × ℕ)) (j : ℕ) : ℚ :=
  ((pyRange 0 Nl).map fun l =>
    a l * ((if (comb.getD l (0, 0)).2 = j then (1 : ℚ) else 0) -
      (if (comb.getD l (0, 0)).1 = j then (1 : ℚ) else 0))).sum

/-- The exact symbolic zero test `expr - expr_try == 0` (line 578),
expressed on coefficient vectors: the laser coefficients up to `Nl`
cancel identically, so the test is that the constant term is zero, that
every level coefficient matches, and that `expr` has no laser coefficient
beyond `Nl`. -/
def combMatches (expr : LinExpr) (Nl Neu : ℕ) (comb : List (ℕ × ℕ)) : Bool :=
  decide (expr.c = 0) &&
    ((pyRange 0 (max expr.lv.length Neu)).all fun j =>
      decide (expr.lv.getD j 0 = combTryLv (rwA expr) Nl comb j)) &&
    ((pyRange Nl expr.la.length).all fun l => decide (expr.la.getD l 0 = 0))

/-- One symbol emitted by `detunings_rewrite`: a derived detuning
`delta{l+1}_{iu+1}_{ju+1}` (success branch, lines 584-592) or a raw
`detuning_knob[l]` (fallback branch, lines 607-613). -/
inductive RwTerm where
  | delta (l iu ju : ℕ)
  | knob (l : ℕ)
deriving DecidableEq

/-- The sequence of terms emitted by `detunings_rewrite`, each with the
laser coefficient `a[l]` that selects its sign token: on the first
matching combination (the loop with `break`, modelled by `List.find?`)
the delta symbols of that combination, otherwise raw detuning knobs. -/
def detunings_rewrite_terms (expr : LinExpr) (combs : List (List (ℕ × ℕ)))
    (Nl Neu : ℕ) : List (ℚ × RwTerm) :=
  match combs.find? (fun comb => combMatches expr Nl Neu comb) with
  | some comb =>
      (pyRange 0 Nl).flatMap fun l =>
        if rwA expr l ≠ 0 then
          [(rwA expr l, RwTerm.delta l (comb.getD l (0, 0)).1 (comb.getD l (0, 0)).2)]
        else []
  | none =>
      (pyRange 0 Nl).flatMap fun l =>
        if rwA expr l ≠ 0 then [(rwA expr l, RwTerm.knob l)] else []

/-- Sign token emitted before a term: `+` for coefficient `1`, `-` for
`-1`, and nothing for any other nonzero coefficient (lines 585-589). -/
def rwSign (a : ℚ) : String := if a = 1 then "+" else if a = -1 then "-" else ""

/-- Textual form of an emitted term (lines 590-592 and 613). -/
def rwTermStr : RwTerm → String
  | RwTerm.delta l iu ju =>
      "delta" ++ toString (l + 1) ++ "_" ++ toString (iu + 1) ++ "_" ++ toString (ju + 1)
  | RwTerm.knob l => "detuning_knob[" ++ toString l ++ "]"

/-- The string returned by `detunings_rewrite` (the variable `assign`):
concatenation of sign tokens and term names.  The arguments
`omega_levelu`, `iu0`, `ju0` are used by the source only to compute the
numeric `remainder` of the fallback branch, which does not reach the
returned string; see `detunings_remainder`. -/
def detunings_rewrite (expr : LinExpr) (combs : List (List (ℕ × ℕ))) (Nl Neu : ℕ)
    (omega_levelu : List ℚ) (iu0 ju0 : List ℕ) : String :=
  (detunings_rewrite_terms expr combs Nl Neu).foldl
    (fun s t => s ++ rwSign t.1 ++ rwTermStr t.2) ""

/-- The numeric remainder computed in the fallback branch of
`detunings_rewrite` (lines 596-605): the level part of `expr` evaluated
with `omega_levelu` plus the reference corrections
`sum_l a[l]*(omega_levelu[iu0[l]] - omega_levelu[ju0[l]])`.  The source
computes this value and then never uses it. -/
def detunings_remainder (expr : LinExpr) (Nl Neu : ℕ) (omega_levelu : List ℚ)
    (iu0 ju0 : List ℕ) : ℚ :=
  ((pyRange 0 Neu).map fun j => expr.lv.getD j 0 * omega_levelu.getD j 0).sum +
    ((pyRange 0 Nl).map fun l =>
      rwA expr l * (omega_levelu.getD (iu0.getD l 0) 0 -
        omega_levelu.getD (ju0.getD l 0) 0)).sum

/-- Runtime value of an emitted term: a delta symbol has the value given
to it by the assignment emitted by `detunings_code`
(`detuning_knob[l] + corr`), a raw knob has the knob's value. -/
def rwTermVal (omega_levelu : List ℚ) (iu0 ju0 : List ℕ) (knob : List ℚ) :
    RwTerm → ℚ
  | RwTerm.delta l iu ju => knob.getD l 0 + detunings_corr omega_levelu iu0 ju0 l iu ju
  | RwTerm.knob l => knob.getD l 0

/-- Runtime value of the emitted right-hand side: the coefficient-weighted
sum of the term values.  For the coefficients `1` and `-1` — the only
ones for which `rwSign` renders a sign token and the emitted Python
expression is well formed — this is exactly the value of the emitted
string under the assignments of `detunings_code`. -/
def rwValue (omega_levelu : List ℚ) (iu0 ju0 : List ℕ) (knob : List ℚ)
    (terms : List (ℚ × RwTerm)) : ℚ :=
  (terms.map fun t => t.1 * rwTermVal omega_levelu iu0 ju0 knob t.2).sum

/-!  The Hamiltonian evaluator built by `fast_hamiltonian` (lines 617-988).

The Python function classifies each of `Ep`, `epsilonp`, `detuning_knob`
as a build-time constant or a runtime argument (the `variable_*` flags,
lines 863-882), generates Python source accordingly and `exec`s it.  We
embed the semantics of the generated evaluator, keeping the staging
explicit: `EpB`, `epsB`, `knobB` are the build-time values baked into the
generated source when the corresponding flag is `false`; `EpR`, `epsR`,
`knobR` are the runtime arguments used when the flag is `true`.  Invoking
a build with the same underlying values means passing the same lists on
both sides. -/

/-- The below-diagonal entry `H[i, j]` (`i > j`) of the generated code
(lines 901-927): for each field `l` with `xi[l, i, j] == 1` the generated
code assigns `H[i, j] = 0.5*Ep[l] * (epsilonp[l] . rm[:, i, j]) * e_num`,
so the last such field wins.  With fixed `epsilonp` the source bakes
`dp = cartesian_dot_product(epsilonp[l], rmij) * e_num`; with variable
`epsilonp` it emits `cartesian_dot_product(epsilonp[l], rmij*e_num)`. -/
def hamiltonian_below (Nl : ℕ) (xi : ℕ → ℕ → ℕ → ℚ) (rm : Fin 3 → ℕ → ℕ → CQ)
    (eNum : ℚ) (variable_Ep variable_epsilonp : Bool)
    (EpB : List CQ) (epsB : List (Fin 3 → CQ))
    (EpR : List CQ) (epsR : List (Fin 3 → CQ)) (i j : ℕ) : CQ :=
  match ((pyRange 0 Nl).filter fun l => decide (xi l i j = 1)).getLast? with
  | none => 0
  | some l =>
      let Epl : CQ := if variable_Ep then EpR.getD l 0 else EpB.getD l 0
      let dot : CQ :=
        if variable_epsilonp then
          cartesian_dot_product (epsR.getD l fun _ => 0) fun p => rm p i j * CQ.ofQ eNum
        else
          cartesian_dot_product (epsB.getD l fun _ => 0) (fun p => rm p i j) * CQ.ofQ eNum
      CQ.ofQ (1 / 2) * Epl * dot

/-- The diagonal entry `H[i, i]` of the generated code before the final
multiplication by `hbar_num` (lines 936-972): the detuning pipeline is
run on `omega_level` and `xi`, the diagonal expression
`theta[i] + omega_levelu[u(i)]` is rewritten by `detunings_rewrite`, and
the value of the emitted formula under the detuning-knob values is
taken; when nothing is emitted (`assign == ""`) the entry stays `0`. -/
def hamiltonian_diag_raw (Nl : ℕ) (omega_level : List ℚ) (xi : ℕ → ℕ → ℕ → ℚ)
    (theta : List LinExpr) (knob : List ℚ) (i : ℕ) : ℚ :=
  let st := define_simplification omega_level
  let olu := st.omega_levelu
  let Neu := simp_Neu st
  let xiu := simp_xiu xi st
  let fom := find_omega_min olu Neu Nl xiu
  let pairs := detunings_indices Neu Nl xiu
  let combs := detunings_combinations pairs
  let Hii := linAdd (theta.getD i ⟨[], [], 0⟩) (levelSym (simp_u st i))
  let terms := detunings_rewrite_terms Hii combs Nl Neu
  if terms = [] then 0 else rwValue olu fom.2.1 fom.2.2 knob terms

/-- The evaluator returned by `fast_hamiltonian`: entry `(i, j)` of the
matrix `H` computed by the generated code.  Below-diagonal entries from
the coupled fields; above-diagonal entries are the conjugates of their
mirrors (lines 929-934); diagonal entries are the rewritten detuning
formulas, multiplied at the end by `hbar_num` (lines 974-976). -/
def fast_hamiltonian (variable_Ep variable_epsilonp variable_detuning_knob : Bool)
    (EpB : List CQ) (epsB : List (Fin 3 → CQ)) (knobB : List ℚ)
    (rm : Fin 3 → ℕ → ℕ → CQ) (omega_level : List ℚ) (xi : ℕ → ℕ → ℕ → ℚ)
    (theta : List LinExpr) (eNum hbarNum : ℚ) (Nl : ℕ)
    (EpR : List CQ) (epsR : List (Fin 3 → CQ)) (knobR : List ℚ) (i j : ℕ) : CQ :=
  if i = j then
    CQ.ofQ (hamiltonian_diag_raw Nl omega_level xi theta
      (if variable_detuning_knob then knobR else knobB) i * hbarNum)
  else if j < i then
    hamiltonian_below Nl xi rm eNum variable_Ep variable_epsilonp EpB epsB EpR epsR i j
  else
    CQ.conj (hamiltonian_below Nl xi rm eNum variable_Ep variable_epsilonp
      EpB epsB EpR epsR j i)

/-!  Concrete data used by the example-based theorems: the coupled
6-level, 2-field system of the module's doctests. -/

/-- The energies `[0, 100, 100, 200, 200, 300]` of the 6-level example. -/
def omega_level6 : List ℚ := [0, 100, 100, 200, 200, 300]

/-- The coupling pattern `[[(1,0),(2,0)], [(3,0),(4,0),(5,0)]]`. -/
def coup6 : List (List (ℕ × ℕ)) := [[(1, 0), (2, 0)], [(3, 0), (4, 0), (5, 0)]]

/-- The symmetric coupling tensor `xi` of the 6-level example. -/
def xi6 : ℕ → ℕ → ℕ → ℚ := fun l i j =>
  if (i, j) ∈ coup6.getD l [] ∨ (j, i) ∈ coup6.getD l [] then 1 else 0

/-- The simplified energies of the 6-level example. -/
def olu4 : List ℚ := [0, 100, 200, 300]

/-- The reference upper indices `iu0` of the 6-level example. -/
def iu0_6 : List ℕ := [1, 2]

/-- The reference lower indices `ju0` of the 6-level example. -/
def ju0_6 : List ℕ := [0, 0]

/-- The coupled-pair lists of the 6-level example. -/
def pairs6 : List (List (ℕ × ℕ)) := [[(1, 0)], [(2, 0), (3, 0)]]

/-- The detuning combinations of the 6-level example. -/
def combs6 : List (List (ℕ × ℕ)) := [[(1, 0), (2, 0)], [(1, 0), (3, 0)]]

/-- The expression `-omega_2 + omega_4 - varpi_1 + varpi_2` of the
fallback doctest of `detunings_rewrite` (lines 554-560). -/
def exprC4 : LinExpr := ⟨[-1, 1], [0, -1, 0, 1], 0⟩

/-- Claim-side correction formula of the specification (section 4.3):
`(omega_levelu[ju0] - omega_levelu[ju]) - (omega_levelu[iu0] - omega_levelu[iu])`. -/
def detunings_corr_spec (omega_levelu : List ℚ) (iu0 ju0 : List ℕ) (l iu ju : ℕ) : ℚ :=
  (omega_levelu.getD (ju0.getD l 0) 0 - omega_levelu.getD ju 0) -
    (omega_levelu.getD (iu0.getD l 0) 0 - omega_levelu.getD iu 0)

/-- An everywhere-zero dipole tensor. -/
def rmZero : Fin 3 → ℕ → ℕ → CQ := fun _ _ _ => 0

/-- A two-level coupling tensor driving the pair `(1, 0)` with field `0`. -/
def xiP : ℕ → ℕ → ℕ → ℚ := fun l i j =>
  if l = 0 ∧ ((i, j) = (1, 0) ∨ (i, j) = (0, 1)) then 1 else 0

-- ===================================================================
-- Theorems
-- ===================================================================

theorem CQ.conj_conj (z : CQ) : CQ.conj (CQ.conj z) = z := by
  cases z; simp [CQ.conj]

theorem CQ.conj_ofQ (q : ℚ) : CQ.conj (CQ.ofQ q) = CQ.ofQ q := by
  simp [CQ.conj, CQ.ofQ]

theorem CQ.mul_def (a b : CQ) :
    a * b = ⟨a.re * b.re - a.im * b.im, a.re * b.im + a.im * b.re⟩ := rfl

theorem CQ.add_def (a b : CQ) : a + b = ⟨a.re + b.re, a.im + b.im⟩ := rfl

theorem cartesian_dot_product_mul_right (v w : Fin 3 → CQ) (c : CQ) :
    cartesian_dot_product v (fun p => w p * c) = cartesian_dot_product v w * c := by
  simp only [cartesian_dot_product, CQ.mul_def, CQ.add_def, CQ.mk.injEq]
  constructor <;> ring

theorem mem_pyRange {a b m : ℕ} : m ∈ pyRange a b ↔ a ≤ m ∧ m < b := by
  rw [pyRange, List.mem_range'_1]; omega

theorem nodup_pyRange (a b : ℕ) : (pyRange a b).Nodup := List.nodup_range' _ _

theorem mem_ite_nil {α : Type} {c : Prop} [Decidable c] {L : List α} {x : α} :
    x ∈ (if c then L else []) ↔ c ∧ x ∈ L := by
  by_cases h : c <;> simp [h]

/-- C5: on three fields the loop of `detunings_combinations` extends every
combination with entries of `pairs[1]` instead of `pairs[2]`, so the
result is not the cartesian product of the three coupled-pair lists; the
unused loop variable in `for l in range(1, Nl): combs = iter(pairs, combs, 1)`
marks the literal `1` as a slip. -/
theorem C5_combinations_failing_input :
    detunings_combinations [[(1, 0)], [(2, 0)], [(3, 0)]] = [[(1, 0), (2, 0), (2, 0)]] ∧
    detunings_combinations_spec [[(1, 0)], [(2, 0)], [(3, 0)]] = [[(1, 0), (2, 0), (3, 0)]] ∧
    detunings_combinations [[(1, 0)], [(2, 0)], [(3, 0)]] ≠
      detunings_combinations_spec [[(1, 0)], [(2, 0)], [(3, 0)]] := by
  refine ⟨?_, ?_, ?_⟩ <;> decide

/-- C6 counterexample: for field `2` and pair `(iu, ju) = (3, 0)` of the
6-level example (reference pair `(2, 0)`), `detunings_code` emits the
correction `-100` (`delta2_4_1 = detuning_knob[1] + (-100.0)` in the
module's own doctest), while the claimed formula
`(omega_levelu[ju0] - omega_levelu[ju]) - (omega_levelu[iu0] - omega_levelu[iu])`
gives `+100`. -/
theorem C6_correction_counterexample :
    detunings_corr olu4 iu0_6 ju0_6 1 3 0 = -100 ∧
    detunings_corr_spec olu4 iu0_6 ju0_6 1 3 0 = 100 ∧
    detunings_corr olu4 iu0_6 ju0_6 1 3 0 ≠ detunings_corr_spec olu4 iu0_6 ju0_6 1 3 0 := by
  norm_num [detunings_corr, detunings_corr_spec, olu4, iu0_6, ju0_6]

/-- C6 amended: every assignment emitted by `detunings_code` defines
`delta{l+1}_{iu+1}_{ju+1}` as `detuning_knob[l]` plus the constant
correction `(omega_levelu[ju0] - omega_levelu[ju]) + (omega_levelu[iu0] -
omega_levelu[iu])` (sum, not difference, of the two reference offsets),
the correction term being omitted from the emitted line exactly when it
equals zero; the value of the defined symbol is the knob plus that
correction. -/
theorem C6_line_amended (omega_levelu : List ℚ) (iu0 ju0 : List ℕ) (l iu ju : ℕ)
    (knob : List ℚ) :
    detunings_line omega_levelu iu0 ju0 l iu ju =
      "    delta" ++ toString (l + 1) ++ "_" ++ toString (iu + 1) ++ "_" ++
        toString (ju + 1) ++ " = detuning_knob[" ++ toString l ++ "]" ++
        (if (omega_levelu.getD (ju0.getD l 0) 0 - omega_levelu.getD ju 0) +
            (omega_levelu.getD (iu0.getD l 0) 0 - omega_levelu.getD iu 0) ≠ 0 then
          " + (" ++ toString ((omega_levelu.getD (ju0.getD l 0) 0 - omega_levelu.getD ju 0) +
            (omega_levelu.getD (iu0.getD l 0) 0 - omega_levelu.getD iu 0)) ++ ")"
        else "") ++ "\n" ∧
    rwTermVal omega_levelu iu0 ju0 knob (RwTerm.delta l iu ju) =
      knob.getD l 0 + ((omega_levelu.getD (ju0.getD l 0) 0 - omega_levelu.getD ju 0) +
        (omega_levelu.getD (iu0.getD l 0) 0 - omega_levelu.getD iu 0)) := by
  have h : detunings_corr omega_levelu iu0 ju0 l iu ju =
      (omega_levelu.getD (ju0.getD l 0) 0 - omega_levelu.getD ju 0) +
        (omega_levelu.getD (iu0.getD l 0) 0 - omega_levelu.getD iu 0) := by
    rw [detunings_corr]; ring
  exact ⟨by rw [detunings_line, h], by rw [rwTermVal, h]⟩

theorem rwValue_knob_flatMap (a : ℕ → ℚ) (omega_levelu : List ℚ) (iu0 ju0 : List ℕ)
    (knob : List ℚ) (L : List ℕ) :
    rwValue omega_levelu iu0 ju0 knob
        (L.flatMap fun l => if a l ≠ 0 then [(a l, RwTerm.knob l)] else []) =
      (L.map fun l => a l * knob.getD l 0).sum := by
  induction L with
  | nil => simp [rwValue]
  | cons x xs ih =>
      by_cases hx : a x = 0
      · simpa [rwValue, hx] using ih
      · simpa [rwValue, hx, rwTermVal] using congrArg (a x * knob.getD x 0 + ·) ih

/-- C4 amended: when no enumerated combination matches exactly, the string
returned by `detunings_rewrite` consists of the signed raw
`detuning_knob[l]` terms alone, and its value under any knob values is
`sum_l a_l * detuning_knob[l]`; the numeric remainder is computed
(`detunings_remainder`) but not folded into the emitted formula, which
carries no constant term. -/
theorem C4_fallback_amended (expr : LinExpr) (combs : List (List (ℕ × ℕ))) (Nl Neu : ℕ)
    (omega_levelu : List ℚ) (iu0 ju0 : List ℕ) (knob : List ℚ)
    (h : combs.find? (fun comb => combMatches expr Nl Neu comb) = none) :
    detunings_rewrite_terms expr combs Nl Neu =
      ((pyRange 0 Nl).flatMap fun l =>
        if rwA expr l ≠ 0 then [(rwA expr l, RwTerm.knob l)] else []) ∧
    rwValue omega_levelu iu0 ju0 knob (detunings_rewrite_terms expr combs Nl Neu) =
      ((pyRange 0 Nl).map fun l => rwA expr l * knob.getD l 0).sum := by
  have ht : detunings_rewrite_terms expr combs Nl Neu =
      (pyRange 0 Nl).flatMap fun l =>
        if rwA expr l ≠ 0 then [(rwA expr l, RwTerm.knob l)] else [] := by
    unfold detunings_rewrite_terms
    rw [h]
  exact ⟨ht, by rw [ht]; exact rwValue_knob_flatMap _ _ _ _ _ _⟩

theorem C4_witness :
    combs6.find? (fun comb => combMatches exprC4 2 4 comb) = none ∧
    rwValue olu4 iu0_6 ju0_6 [5, 7] (detunings_rewrite_terms exprC4 combs6 2 4) =
      ((pyRange 0 2).map fun l => rwA exprC4 l * ([5, 7] : List ℚ).getD l 0).sum := by
  have h : combs6.find? (fun comb => combMatches exprC4 2 4 comb) = none := by
    norm_num [combs6, List.find?, combMatches, combTryLv, rwA, exprC4, pyRange,
      List.range']
  exact ⟨h, (C4_fallback_amended exprC4 combs6 2 4 olu4 iu0_6 ju0_6 [5, 7] h).2⟩

/-- C4 counterexample: on the fallback doctest input of
`detunings_rewrite` the emitted string is
`-detuning_knob[0]+detuning_knob[1]`, whose value at zero knobs is `0`,
while the numeric remainder of the claim is `300`; the remainder is not
folded into the emitted formula. -/
theorem C4_fallback_counterexample :
    detunings_rewrite exprC4 combs6 2 4 olu4 iu0_6 ju0_6 =
      "-detuning_knob[0]+detuning_knob[1]" ∧
    detunings_remainder exprC4 2 4 olu4 iu0_6 ju0_6 = 300 ∧
    rwValue olu4 iu0_6 ju0_6 [0, 0] (detunings_rewrite_terms exprC4 combs6 2 4) = 0 ∧
    rwValue olu4 iu0_6 ju0_6 [0, 0] (detunings_rewrite_terms exprC4 combs6 2 4) ≠
      ((pyRange 0 2).map fun l => rwA exprC4 l * ([0, 0] : List ℚ).getD l 0).sum +
        detunings_remainder exprC4 2 4 olu4 iu0_6 ju0_6 := by
  have h : combs6.find? (fun comb => combMatches exprC4 2 4 comb) = none := by
    norm_num [combs6, List.find?, combMatches, combTryLv, rwA, exprC4, pyRange,
      List.range']
  have ht : detunings_rewrite_terms exprC4 combs6 2 4 =
      [((-1 : ℚ), RwTerm.knob 0), (1, RwTerm.knob 1)] := by
    unfold detunings_rewrite_terms
    rw [h]
    norm_num [pyRange, List.range', rwA, exprC4]
  refine ⟨?_, ?_, ?_, ?_⟩
  · rw [detunings_rewrite, ht]; rfl
  · norm_num [detunings_remainder, pyRange, List.range', rwA, exprC4, olu4, iu0_6, ju0_6]
  · rw [ht]; norm_num [rwValue, rwTermVal]
  · rw [ht]
    norm_num [rwValue, rwTermVal, detunings_remainder, pyRange, List.range', rwA,
      exprC4, olu4, iu0_6, ju0_6]

theorem hamiltonian_below_flag_indep (Nl : ℕ) (xi : ℕ → ℕ → ℕ → ℚ)
    (rm : Fin 3 → ℕ → ℕ → CQ) (eNum : ℚ) (b1 b2 : Bool) (Ep : List CQ)
    (eps : List (Fin 3 → CQ)) (i j : ℕ) :
    hamiltonian_below Nl xi rm eNum b1 b2 Ep eps Ep eps i j =
      hamiltonian_below Nl xi rm eNum true true Ep eps Ep eps i j := by
  unfold hamiltonian_below
  cases ((pyRange 0 Nl).filter fun l => decide (xi l i j = 1)).getLast? with
  | none => rfl
  | some l =>
      simp only [ite_self]
      cases b2
      · simp only [Bool.false_eq_true, if_false, if_true,
          cartesian_dot_product_mul_right]
      · rfl

/-- C2: the matrix returned by the evaluator that `fast_hamiltonian`
builds is Hermitian, `H[i,j] = conj(H[j,i])`, for every configuration,
every staging of the three argument groups, and every concrete choice of
field amplitudes, polarizations and detunings: the above-diagonal entries
are conjugates of the below-diagonal ones by construction and the
diagonal entries are real. -/
theorem C2_hamiltonian_hermitian (vE vP vK : Bool) (EpB : List CQ)
    (epsB : List (Fin 3 → CQ)) (knobB : List ℚ) (rm : Fin 3 → ℕ → ℕ → CQ)
    (omega_level : List ℚ) (xi : ℕ → ℕ → ℕ → ℚ) (theta : List LinExpr)
    (eNum hbarNum : ℚ) (Nl : ℕ) (EpR : List CQ) (epsR : List (Fin 3 → CQ))
    (knobR : List ℚ) (i j : ℕ) :
    fast_hamiltonian vE vP vK EpB epsB knobB rm omega_level xi theta eNum hbarNum Nl
        EpR epsR knobR i j =
      CQ.conj (fast_hamiltonian vE vP vK EpB epsB knobB rm omega_level xi theta eNum
        hbarNum Nl EpR epsR knobR j i) := by
  unfold fast_hamiltonian
  rcases lt_trichotomy i j with h | h | h
  · rw [if_neg h.ne, if_neg (not_lt.mpr h.le), if_neg h.ne', if_pos h]
  · subst h
    rw [if_pos rfl, CQ.conj_ofQ]
  · rw [if_neg h.ne', if_pos h, if_neg h.ne, if_neg (not_lt.mpr h.le), CQ.conj_conj]

/-- C3: the eight calling conventions of `fast_hamiltonian` (every subset
of `{Ep, epsilonp, detuning_knob}` left free at build time), invoked with
the same underlying values for the baked and the free arguments, return
identical matrices; in this exact-rational model the matrices are equal
entrywise, so in particular within any floating tolerance. -/
theorem C3_eight_calling_conventions (vE vP vK vE2 vP2 vK2 : Bool) (Ep : List CQ)
    (eps : List (Fin 3 → CQ)) (knob : List ℚ) (rm : Fin 3 → ℕ → ℕ → CQ)
    (omega_level : List ℚ) (xi : ℕ → ℕ → ℕ → ℚ) (theta : List LinExpr)
    (eNum hbarNum : ℚ) (Nl : ℕ) (i j : ℕ) :
    fast_hamiltonian vE vP vK Ep eps knob rm omega_level xi theta eNum hbarNum Nl
        Ep eps knob i j =
      fast_hamiltonian vE2 vP2 vK2 Ep eps knob rm omega_level xi theta eNum hbarNum Nl
        Ep eps knob i j := by
  unfold fast_hamiltonian
  rw [ite_self, ite_self, hamiltonian_below_flag_indep Nl xi rm eNum vE vP Ep eps i j,
    hamiltonian_below_flag_indep Nl xi rm eNum vE2 vP2 Ep eps i j,
    hamiltonian_below_flag_indep Nl xi rm eNum vE vP Ep eps j i,
    hamiltonian_below_flag_indep Nl xi rm eNum vE2 vP2 Ep eps j i]

theorem pairwise_imp_mem {α : Type} {R S : α → α → Prop} {l : List α}
    (h : ∀ a b, a ∈ l → b ∈ l → R a b → S a b) (hp : l.Pairwise R) : l.Pairwise S := by
  rw [List.pairwise_iff_getElem] at hp ⊢
  intro i j hi hj hij
  exact h _ _ (List.getElem_mem _) (List.getElem_mem _) (hp i j hi hj hij)

theorem mem_vkeysG {K : Type} {Ne Nv start : ℕ} {pop : ℕ → ℕ → List K}
    {coh : ℕ → ℕ → ℕ → List K} {x : K} :
    x ∈ vkeysG Ne Nv start pop coh ↔
      ∃ k, k < Nv ∧ ((∃ i, start ≤ i ∧ i < Ne ∧ x ∈ pop k i) ∨
        ∃ i j, j < i ∧ i < Ne ∧ x ∈ coh k i j) := by
  simp only [vkeysG, List.mem_flatMap, List.mem_append, mem_pyRange]
  constructor
  · rintro ⟨k, ⟨-, hk⟩, hx | hx⟩
    · obtain ⟨i, ⟨hi1, hi2⟩, hp⟩ := hx
      exact ⟨k, hk, Or.inl ⟨i, hi1, hi2, hp⟩⟩
    · obtain ⟨j, ⟨-, hj⟩, i, ⟨hi1, hi2⟩, hc⟩ := hx
      exact ⟨k, hk, Or.inr ⟨i, j, hi1, hi2, hc⟩⟩
  · rintro ⟨k, hk, ⟨i, hi1, hi2, hp⟩ | ⟨i, j, hij, hi, hc⟩⟩
    · exact ⟨k, ⟨Nat.zero_le _, hk⟩, Or.inl ⟨i, ⟨hi1, hi2⟩, hp⟩⟩
    · exact ⟨k, ⟨Nat.zero_le _, hk⟩,
        Or.inr ⟨j, ⟨Nat.zero_le _, lt_trans hij hi⟩, i, ⟨hij, hi⟩, hc⟩⟩

theorem nodup_vkeysG {K : Type} {Ne Nv start : ℕ} {pop : ℕ → ℕ → List K}
    {coh : ℕ → ℕ → ℕ → List K} (tag : K → ℕ)
    (tagp : ∀ k i x, x ∈ pop k i → tag x = k)
    (tagc : ∀ k i j x, x ∈ coh k i j → tag x = k)
    (hpopn : ∀ k i, (pop k i).Nodup)
    (hcohn : ∀ k i j, j < i → (coh k i j).Nodup)
    (hpp : ∀ k i i2, i ≠ i2 → (pop k i).Disjoint (pop k i2))
    (hcc : ∀ k i j i2 j2, j < i → j2 < i2 → (i, j) ≠ (i2, j2) →
      (coh k i j).Disjoint (coh k i2 j2))
    (hpc : ∀ k i i2 j2, j2 < i2 → (pop k i).Disjoint (coh k i2 j2)) :
    (vkeysG Ne Nv start pop coh).Nodup := by
  unfold vkeysG
  rw [List.nodup_flatMap]
  constructor
  · intro k _
    apply List.Nodup.append
    · rw [List.nodup_flatMap]
      refine ⟨fun i _ => hpopn k i, ?_⟩
      exact List.Pairwise.imp (fun h => hpp k _ _ h) (nodup_pyRange start Ne)
    · rw [List.nodup_flatMap]
      constructor
      · intro j _
        rw [List.nodup_flatMap]
        refine ⟨fun i hi => hcohn k i j (mem_pyRange.mp hi).1, ?_⟩
        refine pairwise_imp_mem ?_ (nodup_pyRange (j + 1) Ne)
        intro a b ha hb hne
        exact hcc k a j b j (mem_pyRange.mp ha).1 (mem_pyRange.mp hb).1
          (by simp [Prod.ext_iff]; omega)
      · refine pairwise_imp_mem ?_ (nodup_pyRange 0 Ne)
        intro a b _ _ hne x hx hx2
        simp only [List.mem_flatMap] at hx hx2
        obtain ⟨i, hi, hxi⟩ := hx
        obtain ⟨i2, hi2, hxi2⟩ := hx2
        exact hcc k i a i2 b (mem_pyRange.mp hi).1 (mem_pyRange.mp hi2).1
          (by simp [Prod.ext_iff]; omega) hxi hxi2
    · intro x hx hx2
      simp only [List.mem_flatMap] at hx hx2
      obtain ⟨i, -, hxi⟩ := hx
      obtain ⟨j, -, i2, hi2, hxi2⟩ := hx2
      exact hpc k i i2 j (mem_pyRange.mp hi2).1 hxi hxi2
  · refine List.Pairwise.imp ?_ (nodup_pyRange 0 Nv)
    intro k k2 hne
    simp only [Function.onFun]
    intro x hx hx2
    have h1 : tag x = k := by
      rcases List.mem_append.mp hx with h | h
      · obtain ⟨i, -, hp⟩ := List.mem_flatMap.mp h
        exact tagp k i x hp
      · obtain ⟨j, -, h'⟩ := List.mem_flatMap.mp h
        obtain ⟨i, -, hc⟩ := List.mem_flatMap.mp h'
        exact tagc k i j x hc
    have h2 : tag x = k2 := by
      rcases List.mem_append.mp hx2 with h | h
      · obtain ⟨i, -, hp⟩ := List.mem_flatMap.mp h
        exact tagp k2 i x hp
      · obtain ⟨j, -, h'⟩ := List.mem_flatMap.mp h
        obtain ⟨i, -, hc⟩ := List.mem_flatMap.mp h'
        exact tagc k2 i j x hc
    exact hne (h1 ▸ h2)

theorem mem_comp_coh {ltr : Bool} {k i j : ℕ} {x : KeyC} (hx : x ∈ comp_coh ltr k i j) :
    x = (i, j, k) ∨ x = (j, i, k) := by
  cases ltr <;> simp [comp_coh] at hx <;> tauto

theorem mem_comp_coh_true {k i j : ℕ} {x : KeyC} (hx : x ∈ comp_coh true k i j) :
    x = (i, j, k) := by
  simpa [comp_coh] using hx

theorem mem_real_coh_true {k i j : ℕ} {x : KeyR} (hx : x ∈ real_coh true k i j) :
    x.2 = (i, j, k) := by
  simp [real_coh] at hx
  rcases hx with h | h <;> simp [h]

theorem mem_real_coh {ltr : Bool} {k i j : ℕ} {x : KeyR} (hx : x ∈ real_coh ltr k i j) :
    (x.1 = 1 ∨ x.1 = -1) ∧ (x.2 = (i, j, k) ∨ x.2 = (j, i, k)) := by
  cases ltr
  · simp [real_coh] at hx
    rcases hx with h | h | h | h <;> simp [h]
  · simp [real_coh] at hx
    rcases hx with h | h <;> simp [h]

theorem comp_map_keys_nodup (Ne Nv : ℕ) (ltr norm : Bool) :
    (comp_map_keys Ne Nv ltr norm).Nodup := by
  refine nodup_vkeysG (fun x => x.2.2) ?_ ?_ ?_ ?_ ?_ ?_ ?_
  · intro k i x hx; simp [comp_pop] at hx; simp [hx]
  · intro k i j x hx
    rcases mem_comp_coh hx with rfl | rfl <;> rfl
  · intro k i; simp [comp_pop]
  · intro k i j hij; cases ltr <;> simp [comp_coh] <;> omega
  · intro k i i2 hne x hx hx2
    simp [comp_pop] at hx hx2
    rw [hx] at hx2
    simp [Prod.ext_iff] at hx2
    exact hne hx2
  · intro k i j i2 j2 h1 h2 hne x hx hx2
    rcases mem_comp_coh hx with rfl | rfl <;>
      rcases mem_comp_coh hx2 with h | h <;> simp_all [Prod.ext_iff] <;> omega
  · intro k i i2 j2 h2 x hx hx2
    simp [comp_pop] at hx
    rcases mem_comp_coh hx2 with h | h <;> rw [hx] at h <;>
      simp [Prod.ext_iff] at h <;> omega

theorem real_map_keys_nodup (Ne Nv : ℕ) (ltr norm : Bool) :
    (real_map_keys Ne Nv ltr norm).Nodup := by
  refine nodup_vkeysG (fun x => x.2.2.2) ?_ ?_ ?_ ?_ ?_ ?_ ?_
  · intro k i x hx; simp [real_pop] at hx; simp [hx]
  · intro k i j x hx
    rcases (mem_real_coh hx).2 with h | h <;> (show x.2.2.2 = k; rw [h])
  · intro k i; simp [real_pop]
  · intro k i j hij; cases ltr <;> simp [real_coh, Prod.ext_iff] <;> omega
  · intro k i i2 hne x hx hx2
    simp [real_pop] at hx hx2
    rw [hx] at hx2
    simp [Prod.ext_iff] at hx2
    exact hne hx2
  · intro k i j i2 j2 h1 h2 hne x hx hx2
    have ha := (mem_real_coh hx).2
    have hb := (mem_real_coh hx2).2
    rcases ha with h | h <;> rcases hb with h' | h' <;> rw [h] at h' <;>
      simp_all [Prod.ext_iff] <;> omega
  · intro k i i2 j2 h2 x hx hx2
    simp [real_pop] at hx
    have hb := (mem_real_coh hx2).2
    rcases hb with h | h <;> rw [hx] at h <;> simp [Prod.ext_iff] at h <;> omega

theorem pyIndexOf_getElem? {K : Type} [DecidableEq K] {l : List K} {x : K}
    (hx : x ∈ l) : l[pyIndexOf l x]? = some x := List.getElem?_indexOf hx

theorem pyIndexOf_getElem {K : Type} [DecidableEq K] {l : List K} (h : l.Nodup)
    (mu : ℕ) (hmu : mu < l.length) : pyIndexOf l l[mu] = mu :=
  List.indexOf_getElem h mu hmu

/-- C1: for every configuration (`Ne >= 1`, `Nv >= 1`, any flags), the
pair `(Mu, IJ)` returned by `vectorization` is a pair of exact two-sided
inverses, in both the complex and the real encoding: `IJ(Mu(x)) = x` for
every coordinate tuple `x` in the configured domain (the inserted keys),
and `Mu(IJ(mu)) = mu` for every assigned flat index `mu`. -/
theorem C1_vectorization_roundtrip (Ne Nv : ℕ) (ltr norm : Bool)
    (hNe : 1 ≤ Ne) (hNv : 1 ≤ Nv) :
    (∀ x ∈ comp_map_keys Ne Nv ltr norm,
      (Mu_comp Ne Nv ltr norm x).bind (IJ_comp Ne Nv ltr norm) = some x) ∧
    (∀ mu < (comp_map_keys Ne Nv ltr norm).length,
      (IJ_comp Ne Nv ltr norm mu).bind (Mu_comp Ne Nv ltr norm) = some mu) ∧
    (∀ x ∈ real_map_keys Ne Nv ltr norm,
      (Mu_real Ne Nv ltr norm x).bind (IJ_real Ne Nv ltr norm) = some x) ∧
    (∀ mu < (real_map_keys Ne Nv ltr norm).length,
      (IJ_real Ne Nv ltr norm mu).bind (Mu_real Ne Nv ltr norm) = some mu) := by
  refine ⟨?_, ?_, ?_, ?_⟩
  · intro x hx
    rw [Mu_comp, if_pos hx, Option.some_bind, IJ_comp]
    exact pyIndexOf_getElem? hx
  · intro mu hmu
    have hx : (comp_map_keys Ne Nv ltr norm)[mu] ∈ comp_map_keys Ne Nv ltr norm :=
      List.getElem_mem _
    rw [IJ_comp, List.getElem?_eq_getElem hmu, Option.some_bind, Mu_comp, if_pos hx,
      pyIndexOf_getElem (comp_map_keys_nodup Ne Nv ltr norm) mu hmu]
  · intro x hx
    rw [Mu_real, if_pos hx, Option.some_bind, IJ_real]
    exact pyIndexOf_getElem? hx
  · intro mu hmu
    have hx : (real_map_keys Ne Nv ltr norm)[mu] ∈ real_map_keys Ne Nv ltr norm :=
      List.getElem_mem _
    rw [IJ_real, List.getElem?_eq_getElem hmu, Option.some_bind, Mu_real, if_pos hx,
      pyIndexOf_getElem (real_map_keys_nodup Ne Nv ltr norm) mu hmu]

theorem C1_witness :
    (1 ≤ 2) ∧ (1 ≤ 1) ∧
    ((∀ x ∈ comp_map_keys 2 1 true false,
      (Mu_comp 2 1 true false x).bind (IJ_comp 2 1 true false) = some x) ∧
    (∀ mu < (comp_map_keys 2 1 true false).length,
      (IJ_comp 2 1 true false mu).bind (Mu_comp 2 1 true false) = some mu) ∧
    (∀ x ∈ real_map_keys 2 1 true false,
      (Mu_real 2 1 true false x).bind (IJ_real 2 1 true false) = some x) ∧
    (∀ mu < (real_map_keys 2 1 true false).length,
      (IJ_real 2 1 true false mu).bind (Mu_real 2 1 true false) = some mu)) :=
  ⟨by decide, by decide, C1_vectorization_roundtrip 2 1 true false (by decide) (by decide)⟩

/-- C9: calling `Mu` with a coordinate excluded by the active
configuration is a dictionary lookup miss (a Python `KeyError`, here
`none`): the suppressed anchor population `(0, 0, k)` when
`normalized=True`, and any upper-triangle pair `(j, i, k)` with `i > j`
when `lower_triangular=True`, in both encodings. -/
theorem C9_excluded_coordinate_misses (Ne Nv : ℕ) (ltr norm : Bool) (i j k : ℕ)
    (s : ℤ) :
    (norm = true →
      Mu_comp Ne Nv ltr norm (0, 0, k) = none ∧
      Mu_real Ne Nv ltr norm (1, 0, 0, k) = none) ∧
    (ltr = true → j < i →
      Mu_comp Ne Nv ltr norm (j, i, k) = none ∧
      Mu_real Ne Nv ltr norm (s, j, i, k) = none) := by
  constructor
  · intro hnorm
    constructor
    · rw [Mu_comp, if_neg]
      intro hmem
      rcases mem_vkeysG.mp hmem with ⟨k', -, ⟨i', hi1, -, hp⟩ | ⟨i', j', hij, -, hc⟩⟩
      · simp [comp_pop] at hp
        rw [vstart, if_pos hnorm] at hi1
        omega
      · rcases mem_comp_coh hc with h | h <;> simp [Prod.ext_iff] at h <;> omega
    · rw [Mu_real, if_neg]
      intro hmem
      rcases mem_vkeysG.mp hmem with ⟨k', -, ⟨i', hi1, -, hp⟩ | ⟨i', j', hij, -, hc⟩⟩
      · simp [real_pop, Prod.ext_iff] at hp
        rw [vstart, if_pos hnorm] at hi1
        omega
      · have := (mem_real_coh hc).2
        rcases this with h | h <;> simp [Prod.ext_iff] at h <;> omega
  · intro hltr hji
    constructor
    · rw [Mu_comp, if_neg]
      intro hmem
      rcases mem_vkeysG.mp hmem with ⟨k', -, ⟨i', -, -, hp⟩ | ⟨i', j', hij, -, hc⟩⟩
      · simp [comp_pop, Prod.ext_iff] at hp
        omega
      · rw [hltr] at hc
        have h := mem_comp_coh_true hc
        simp [Prod.ext_iff] at h
        omega
    · rw [Mu_real, if_neg]
      intro hmem
      rcases mem_vkeysG.mp hmem with ⟨k', -, ⟨i', -, -, hp⟩ | ⟨i', j', hij, -, hc⟩⟩
      · simp [real_pop, Prod.ext_iff] at hp
        omega
      · rw [hltr] at hc
        have h := mem_real_coh_true hc
        simp [Prod.ext_iff] at h
        omega

theorem C9_witness :
    Mu_comp 2 1 true true (0, 0, 0) = none ∧ Mu_real 2 1 true true (1, 0, 0, 0) = none ∧
    Mu_comp 2 1 true true (0, 1, 0) = none ∧ Mu_real 2 1 true true (-1, 0, 1, 0) = none :=
  ⟨((C9_excluded_coordinate_misses 2 1 true true 1 0 0 (-1)).1 rfl).1,
    ((C9_excluded_coordinate_misses 2 1 true true 1 0 0 (-1)).1 rfl).2,
    ((C9_excluded_coordinate_misses 2 1 true true 1 0 0 (-1)).2 rfl (by decide)).1,
    ((C9_excluded_coordinate_misses 2 1 true true 1 0 0 (-1)).2 rfl (by decide)).2⟩

theorem mem_phase_transformation_eqs {Ne Nl : ℕ} {rm : Fin 3 → ℕ → ℕ → CQ}
    {xi : ℕ → ℕ → ℕ → ℚ} {e : PhaseEq} :
    e ∈ phase_transformation_eqs Ne Nl rm xi ↔
      e.tj < e.ti ∧ e.ti < Ne ∧ e.l < Nl ∧
        (rm 0 e.ti e.tj ≠ 0 ∨ rm 1 e.ti e.tj ≠ 0 ∨ rm 2 e.ti e.tj ≠ 0) ∧
        xi e.l e.ti e.tj = 1 := by
  simp only [phase_transformation_eqs, List.mem_flatMap, mem_pyRange, mem_ite_nil]
  constructor
  · rintro ⟨i, ⟨-, hi⟩, j, ⟨-, hj⟩, hrm, l, ⟨-, hl⟩, hxi, he⟩
    rw [List.mem_singleton] at he
    subst he
    exact ⟨hj, hi, hl, hrm, hxi⟩
  · rintro ⟨h1, h2, h3, h4, h5⟩
    refine ⟨e.ti, ⟨Nat.zero_le _, h2⟩, e.tj, ⟨Nat.zero_le _, h1⟩, h4, e.l,
      ⟨Nat.zero_le _, h3⟩, h5, ?_⟩
    rw [List.mem_singleton]

/-- C8 amended: the equation system built by `phase_transformation`
contains the equation `-omega_laser[l] + theta[j] - theta[i]` exactly for
the pairs `(i, j)` with `i > j` that have a nonzero dipole element
(`rm[p][i,j] != 0` for some component `p`) and are driven by field `l`
(`xi[l,i,j] == 1`); the nonzero-dipole condition is required in addition
to the claimed coupling condition. -/
theorem C8_phase_equation_membership (Ne Nl : ℕ) (rm : Fin 3 → ℕ → ℕ → CQ)
    (xi : ℕ → ℕ → ℕ → ℚ) (l i j : ℕ) :
    (⟨l, j, i⟩ : PhaseEq) ∈ phase_transformation_eqs Ne Nl rm xi ↔
      j < i ∧ i < Ne ∧ l < Nl ∧
        (rm 0 i j ≠ 0 ∨ rm 1 i j ≠ 0 ∨ rm 2 i j ≠ 0) ∧ xi l i j = 1 :=
  mem_phase_transformation_eqs

/-- C8 counterexample: with a two-level system whose single transition is
driven by field `0` (`xi[0,1,0] == 1`) but whose dipole tensor is zero,
the claim requires the equation for `(i, j, l) = (1, 0, 0)` to be in the
system, but `phase_transformation` does not emit it. -/
theorem C8_counterexample :
    xiP 0 1 0 = 1 ∧ (0 : ℕ) < 1 ∧ (1 : ℕ) < 2 ∧
      (⟨0, 0, 1⟩ : PhaseEq) ∉ phase_transformation_eqs 2 1 rmZero xiP := by
  refine ⟨by norm_num [xiP], by decide, by decide, ?_⟩
  decide

/-- C10: when no pair `(i, j)` is simultaneously driven by some field and
carries a nonzero dipole element, the equation list built by
`phase_transformation` is empty and the subsequent `sol = sol[0]` step
has no solution dictionary to index (the external solver returns no
solution dictionaries for an empty system), so the call fails instead of
returning a phase per level. -/
theorem C10_empty_system_fails (Sol : Type) (solve : List PhaseEq → List Sol)
    (hsolve : solve [] = []) (Ne Nl : ℕ) (rm : Fin 3 → ℕ → ℕ → CQ)
    (xi : ℕ → ℕ → ℕ → ℚ)
    (h : ∀ i < Ne, ∀ j < i, ∀ l < Nl,
      ¬((rm 0 i j ≠ 0 ∨ rm 1 i j ≠ 0 ∨ rm 2 i j ≠ 0) ∧ xi l i j = 1)) :
    phase_transformation_eqs Ne Nl rm xi = [] ∧
      phase_transformation_sol solve Ne Nl rm xi = none := by
  have he : phase_transformation_eqs Ne Nl rm xi = [] := by
    rw [List.eq_nil_iff_forall_not_mem]
    intro e hme
    rw [mem_phase_transformation_eqs] at hme
    exact h e.ti hme.2.1 e.tj hme.1 e.l hme.2.2.1 ⟨hme.2.2.2.1, hme.2.2.2.2⟩
  refine ⟨he, ?_⟩
  rw [phase_transformation_sol, he, hsolve]
  rfl

theorem C10_witness :
    phase_transformation_eqs 2 1 rmZero xiP = [] ∧
      phase_transformation_sol (fun _ => ([] : List Unit)) 2 1 rmZero xiP = none :=
  C10_empty_system_fails Unit (fun _ => []) rfl 2 1 rmZero xiP
    (fun _ _ _ _ _ _ h =>
      h.1.elim (fun hc => hc rfl) (fun hc => hc.elim (fun hc2 => hc2 rfl) fun hc2 => hc2 rfl))

/-- C7: on the 6-level, 2-field example with energies
`[0, 100, 100, 200, 200, 300]` and coupling
`[[(1,0),(2,0)], [(3,0),(4,0),(5,0)]]`: `define_simplification` yields
`Neu = 4` and `omega_levelu = [0, 100, 200, 300]`; `find_omega_min`
yields the reference pairs `(iu0, ju0) = [(1, 0), (2, 0)]`;
`detunings_indices` yields `[[(1,0)], [(2,0),(3,0)]]`; and
`detunings_code` emits the three assignments, whose values are
`delta1_2_1 = detuning_knob[0]`, `delta2_3_1 = detuning_knob[1]` and
`delta2_4_1 = detuning_knob[1] - 100`. -/
theorem C7_example_scenario :
    simp_Neu (define_simplification omega_level6) = 4 ∧
    (define_simplification omega_level6).omega_levelu = olu4 ∧
    (find_omega_min olu4 4 2 (simp_xiu xi6 (define_simplification omega_level6))).2.1 =
      iu0_6 ∧
    (find_omega_min olu4 4 2 (simp_xiu xi6 (define_simplification omega_level6))).2.2 =
      ju0_6 ∧
    detunings_indices 4 2 (simp_xiu xi6 (define_simplification omega_level6)) = pairs6 ∧
    detunings_code 4 2 pairs6 olu4 iu0_6 ju0_6 =
      "    delta1_2_1 = detuning_knob[0]\n    delta2_3_1 = detuning_knob[1]\n" ++
        "    delta2_4_1 = detuning_knob[1] + (-100)\n" ∧
    (∀ knob : List ℚ,
      rwTermVal olu4 iu0_6 ju0_6 knob (RwTerm.delta 0 1 0) = knob.getD 0 0 ∧
      rwTermVal olu4 iu0_6 ju0_6 knob (RwTerm.delta 1 2 0) = knob.getD 1 0 ∧
      rwTermVal olu4 iu0_6 ju0_6 knob (RwTerm.delta 1 3 0) = knob.getD 1 0 - 100) := by
  refine ⟨?_, ?_, ?_, ?_, ?_, ?_, ?_⟩
  · norm_num [define_simplification, simp_Neu, pyRange, List.range', omega_level6]
  · norm_num [define_simplification, pyRange, List.range', omega_level6, olu4]
  · norm_num [define_simplification, simp_xiu, simp_invu, find_omega_min, omegasl,
      sortLt, insertLt, lexLtQ, pyRange, List.range', omega_level6, olu4, xi6, coup6,
      iu0_6]
  · norm_num [define_simplification, simp_xiu, simp_invu, find_omega_min, omegasl,
      sortLt, insertLt, lexLtQ, pyRange, List.range', omega_level6, olu4, xi6, coup6,
      ju0_6]
  · norm_num [define_simplification, simp_xiu, simp_invu, detunings_indices, pyRange,
      List.range', omega_level6, xi6, coup6, pairs6]
  · norm_num [detunings_code, detunings_line, detunings_corr, pyRange, List.range',
      olu4, iu0_6, ju0_6, pairs6]
    decide
  · intro knob
    refine ⟨?_, ?_, ?_⟩ <;> norm_num [rwTermVal, detunings_corr, olu4, iu0_6, ju0_6] <;>
      ring
